import Mathlib

/-!
Shallow embedding of `src/backend/share.py` (NoteDiscovery share-token store).

The module keeps one JSON file per data directory mapping token strings to
`{path, theme, created}` records.  We model:

* the JSON record as `Record` with optional fields (a JSON object may omit keys;
  `info.get(k)` returns `None` for a missing key);
* the token table as an association list in insertion order (Python dicts
  iterate in insertion order, and every scan in the source takes the first
  match);
* the persisted file as `FileState` (`missing`, unreadable-or-unparsable
  `corrupt`, or `valid table`);
* `secrets.choice`-based randomness as an explicit choice function, the
  generate-until-fresh loop of `create_share_token` as a token parameter
  (theorems that exercise the fresh-insert branch carry the loop's
  postcondition, that the token is not a key of the table, as a hypothesis);
* `datetime.now(...).isoformat()` as an explicit `created` string parameter;
* success of `save_tokens` (the file write) as a boolean `ioOk` parameter; a
  failed write leaves the file state unchanged in the model (the source
  returns `False` and the claims only constrain the success path);
* the `except (json.JSONDecodeError, IOError)` clause of `load_tokens` does
  NOT catch `UnicodeDecodeError`: an existing file whose bytes are not valid
  UTF-8 (for instance truncated in the middle of a multi-byte character,
  which the `ensure_ascii=False` output of `save_tokens` makes possible)
  raises out of `load_tokens` to the caller.  `FileState` covers the states
  on which `load_tokens` returns normally; `FileStateExt` adds the
  undecodable state, and `load_tokens_exc` / `revoke_share_token_exc` are
  the full, `Except`-valued models of the corresponding functions on it.

Python-semantics points carried over faithfully:

* `info.get('path') == note_path` compares an optional string with a string,
  modelled by `e.2.path == some note_path`;
* `if token_to_remove:` in `revoke_share_token` is falsy for the empty string,
  so a record keyed by the empty-string token is found but never removed;
* `if info.get('path')` in `get_all_shared_paths` drops missing and empty
  paths (both falsy);
* `tokens[token] = {...}` on a new key appends at the end of the iteration
  order.
-/

set_option autoImplicit false

namespace NoteDiscovery

/-- A stored share-token record: the value part of one entry of
`.share-tokens.json`.  All fields are optional because a (possibly hand-edited
or corrupted) JSON object may omit any key. -/
structure Record where
  path : Option String
  theme : Option String
  created : Option String
deriving Repr, DecidableEq

/-- The token table: token string to record, in insertion order. -/
abbrev Table := List (String × Record)

/-- States of the persisted `.share-tokens.json` file on which `load_tokens`
returns normally: the file is absent (`missing`), present but failing to
read or parse with one of the two caught exception classes — `IOError` from
the OS read or `json.JSONDecodeError` from parsing — (`corrupt`), or parsed
as a table (`valid`).  The state on which `load_tokens` raises instead is
`FileStateExt.undecodable` below. -/
inductive FileState where
  | missing
  | corrupt
  | valid (tokens : Table)
deriving Repr, DecidableEq

/-- `load_tokens` on its non-raising states: a missing file, and a file that
fails to read or parse with a caught exception class, both load as the empty
table.  `load_tokens_exc` below is the full model, including the state on
which the function raises. -/
def load_tokens : FileState → Table
  | .missing => []
  | .corrupt => []
  | .valid tokens => tokens

/-- `save_tokens`: overwrites the file with the serialized table and returns
`True`, or returns `False` on an I/O failure (`ioOk` is the oracle for whether
the write succeeds). -/
def save_tokens (fs : FileState) (tokens : Table) (ioOk : Bool) : Bool × FileState :=
  if ioOk then (true, .valid tokens) else (false, fs)

/-- The scan predicate `info.get('path') == note_path`. -/
def pathMatches (note_path : String) (e : String × Record) : Bool :=
  e.2.path == some note_path

/-- The 64-character alphabet of `generate_token`:
`string.ascii_letters + string.digits + '_-'`. -/
def tokenAlphabet : List Char :=
  "abcdefghijklmnopqrstuvwxyzABCDEFGHIJKLMNOPQRSTUVWXYZ0123456789_-".toList

/-- `generate_token`: one `secrets.choice(alphabet)` per position, `length`
characters, default 16.  The random source is the explicit `choice`
function. -/
def generate_token (choice : Nat → Fin tokenAlphabet.length)
    (length : Nat := 16) : String :=
  String.mk ((List.range length).map fun i => tokenAlphabet.get (choice i))

/-- `create_share_token`: under the lock, load; if some record already has
this path return its token unchanged; otherwise insert a fresh record and
save.  `newToken` stands for the result of the generate-until-fresh loop and
`created` for the current UTC timestamp. -/
def create_share_token (fs : FileState) (note_path theme : String)
    (newToken created : String) (ioOk : Bool) : Option String × FileState :=
  let tokens := load_tokens fs
  match tokens.find? (pathMatches note_path) with
  | some e => (some e.1, fs)
  | none =>
      let tokens' := tokens ++ [(newToken, ⟨some note_path, some theme, some created⟩)]
      let r := save_tokens fs tokens' ioOk
      (if r.1 then some newToken else none, r.2)

/-- `get_share_token`: first token whose record's path equals `note_path`. -/
def get_share_token (fs : FileState) (note_path : String) : Option String :=
  ((load_tokens fs).find? (pathMatches note_path)).map (fun e => e.1)

/-- The `{'path': ..., 'theme': ...}` result of `get_note_by_token`. -/
structure NoteInfo where
  path : Option String
  theme : String
deriving Repr, DecidableEq

/-- `get_note_by_token`: direct key lookup; theme defaults to `"light"` when
the stored record omits it. -/
def get_note_by_token (fs : FileState) (token : String) : Option NoteInfo :=
  match (load_tokens fs).find? (fun e => e.1 == token) with
  | some e => some ⟨e.2.path, e.2.theme.getD "light"⟩
  | none => none

/-- `get_all_shared_paths`: every truthy path (present and non-empty), in
table order. -/
def get_all_shared_paths (fs : FileState) : List String :=
  (load_tokens fs).filterMap fun e =>
    match e.2.path with
    | some p => if p == "" then none else some p
    | none => none

/-- `revoke_share_token`: find the first record matching the path, delete it
and save.  The source guards the deletion with `if token_to_remove:`, which in
Python is false both for `None` (no match) and for the empty-string token. -/
def revoke_share_token (fs : FileState) (note_path : String) (ioOk : Bool) :
    Bool × FileState :=
  let tokens := load_tokens fs
  match tokens.find? (pathMatches note_path) with
  | some e =>
      if e.1 == "" then (false, fs)
      else save_tokens fs (tokens.eraseP (pathMatches note_path)) ioOk
  | none => (false, fs)

/-- The result of `get_share_info`: `{'shared': False}` or
`{'token': ..., 'theme': ..., 'created': ..., 'shared': True}`. -/
inductive ShareInfo where
  | notShared
  | shared (token theme : String) (created : Option String)
deriving Repr, DecidableEq

/-- `get_share_info`: first record matching the path, with the `"light"` theme
default. -/
def get_share_info (fs : FileState) (note_path : String) : ShareInfo :=
  match (load_tokens fs).find? (pathMatches note_path) with
  | some e => .shared e.1 (e.2.theme.getD "light") e.2.created
  | none => .notShared

/-- `info['path'] = new_path` on one record. -/
def setPath (r : Record) (new_path : String) : Record :=
  { r with path := some new_path }

/-- The in-place mutation loop of `update_token_path`: rewrite the path of the
first record matching `old_path`, leaving everything else untouched. -/
def update_first_path : Table → String → String → Table
  | [], _, _ => []
  | e :: rest, old_path, new_path =>
      if pathMatches old_path e then (e.1, setPath e.2 new_path) :: rest
      else e :: update_first_path rest old_path new_path

/-- `update_token_path`: under the lock, rewrite the first matching record's
path and save; `False` when no record matches. -/
def update_token_path (fs : FileState) (old_path new_path : String) (ioOk : Bool) :
    Bool × FileState :=
  let tokens := load_tokens fs
  if ((tokens.find? (pathMatches old_path)).isSome) then
    save_tokens fs (update_first_path tokens old_path new_path) ioOk
  else (false, fs)

/-- `delete_token_for_note` is an alias for `revoke_share_token`. -/
def delete_token_for_note (fs : FileState) (note_path : String) (ioOk : Bool) :
    Bool × FileState :=
  revoke_share_token fs note_path ioOk

/-- The exception that escapes `load_tokens`: reading a present file whose
bytes are not valid UTF-8 raises `UnicodeDecodeError` inside `json.load`,
and `UnicodeDecodeError` is a subclass of neither `json.JSONDecodeError` nor
`IOError`, so the `except` clause does not catch it. -/
inductive PyError where
  | unicodeDecodeError
deriving Repr, DecidableEq

/-- File states extended with the one on which `load_tokens` raises: a
present file whose bytes do not decode as UTF-8. -/
inductive FileStateExt where
  | decodable (fs : FileState)
  | undecodable
deriving Repr, DecidableEq

/-- The full model of `load_tokens`: on a decodable state it returns the
table as `load_tokens` does; on an undecodable file the
`UnicodeDecodeError` escapes `except (json.JSONDecodeError, IOError)` and
propagates to the caller. -/
def load_tokens_exc : FileStateExt → Except PyError Table
  | .decodable fs => .ok (load_tokens fs)
  | .undecodable => .error .unicodeDecodeError

/-- `revoke_share_token` on the extended file states.  Its `load_tokens`
call is the function's only read of the file, so on an undecodable file the
`UnicodeDecodeError` propagates out of the function (the `with _lock:`
block releases the lock and re-raises); on every decodable state it behaves
as `revoke_share_token`. -/
def revoke_share_token_exc (fs : FileStateExt) (note_path : String)
    (ioOk : Bool) : Except PyError (Bool × FileState) :=
  match fs with
  | .undecodable => .error .unicodeDecodeError
  | .decodable fs => .ok (revoke_share_token fs note_path ioOk)

/-- File states reachable from an empty data directory by the three mutating
operations.  The side condition on `create` is the postcondition of the
source's generate-until-fresh loop. -/
inductive Reachable : FileState → Prop
  | init : Reachable .missing
  | create (fs : FileState) (p th tok cr : String) (ioOk : Bool)
      (hfs : Reachable fs) (hfresh : ∀ e ∈ load_tokens fs, e.1 ≠ tok) :
      Reachable (create_share_token fs p th tok cr ioOk).2
  | revoke (fs : FileState) (p : String) (ioOk : Bool) (hfs : Reachable fs) :
      Reachable (revoke_share_token fs p ioOk).2
  | update (fs : FileState) (old_path new_path : String) (ioOk : Bool)
      (hfs : Reachable fs) :
      Reachable (update_token_path fs old_path new_path ioOk).2

/-- Like `Reachable`, but a rename step may only move a record to a path that
no record currently has. -/
inductive ReachableSafe : FileState → Prop
  | init : ReachableSafe .missing
  | create (fs : FileState) (p th tok cr : String) (ioOk : Bool)
      (hfs : ReachableSafe fs) (hfresh : ∀ e ∈ load_tokens fs, e.1 ≠ tok) :
      ReachableSafe (create_share_token fs p th tok cr ioOk).2
  | revoke (fs : FileState) (p : String) (ioOk : Bool) (hfs : ReachableSafe fs) :
      ReachableSafe (revoke_share_token fs p ioOk).2
  | update (fs : FileState) (old_path new_path : String) (ioOk : Bool)
      (hfs : ReachableSafe fs)
      (hnew : ∀ e ∈ load_tokens fs, e.2.path ≠ some new_path) :
      ReachableSafe (update_token_path fs old_path new_path ioOk).2

/-- At most one table entry carries any given path. -/
def atMostOnePerPath (tokens : Table) : Prop :=
  ∀ p : String, tokens.countP (pathMatches p) ≤ 1

lemma pathMatches_iff {p : String} {e : String × Record} :
    pathMatches p e = true ↔ e.2.path = some p := by
  simp [pathMatches]

lemma find?_pathMatches_eq_none {tokens : Table} {p : String}
    (h : ∀ e ∈ tokens, e.2.path ≠ some p) :
    tokens.find? (pathMatches p) = none := by
  rw [List.find?_eq_none]
  intro e he
  rw [pathMatches_iff]
  exact h e he

/-- Claim C9: for every length `n`, `generate_token` with that length returns a
string of exactly `n` characters, each drawn from the 64-symbol alphabet
`A-Za-z0-9_-` (64 pairwise-distinct symbols); the default length is 16. -/
theorem generate_token_spec (choice : Nat → Fin tokenAlphabet.length) (n : Nat) :
    (generate_token choice n).length = n ∧
    (∀ c ∈ (generate_token choice n).data, c ∈ tokenAlphabet) ∧
    tokenAlphabet.length = 64 ∧ tokenAlphabet.Nodup ∧
    (generate_token choice).length = 16 := by
  refine ⟨?_, ?_, by decide, by decide, ?_⟩
  · simp [generate_token, String.length]
  · intro c hc
    simp only [generate_token, String.data, List.mem_map, List.mem_range] at hc
    obtain ⟨i, _, rfl⟩ := hc
    exact List.get_mem _ _ _
  · simp [generate_token, String.length]

/-- Claim C3: `create_share_token` is idempotent in the token it returns: when
some record for the path already exists, the call returns that record's token
for any theme argument and leaves the persisted table (hence the stored theme
from the first call) unchanged. -/
theorem create_idempotent (fs : FileState) (p T t2 tok cr : String) (ioOk : Bool)
    (h : get_share_token fs p = some T) :
    create_share_token fs p t2 tok cr ioOk = (some T, fs) := by
  cases hf : (load_tokens fs).find? (pathMatches p) with
  | none => simp [get_share_token, hf] at h
  | some e =>
      simp only [get_share_token, hf, Option.map_some'] at h
      simp [create_share_token, hf, h]

theorem create_idempotent_witness :
    create_share_token (.valid [("T0", ⟨some "a", some "dark", some "c"⟩)])
        "a" "light" "ZZ" "c2" true
      = (some "T0", .valid [("T0", ⟨some "a", some "dark", some "c"⟩)]) :=
  create_idempotent _ "a" "T0" "light" "ZZ" "c2" true (by decide)

/-- Claim C7 (counterexample): a file that exists but whose bytes are not
valid UTF-8 fails to read, yet `load_tokens` does not return an empty table
for it — or any table at all: the `UnicodeDecodeError` raised inside
`json.load` is caught by neither `json.JSONDecodeError` nor `IOError` and
propagates to the caller. -/
theorem load_tokens_raises_counterexample :
    load_tokens_exc .undecodable = .error .unicodeDecodeError ∧
    ∀ t : Table, load_tokens_exc .undecodable ≠ .ok t :=
  ⟨rfl, fun _ h => Except.noConfusion h⟩

/-- Claim C7 (amended): `load_tokens` returns the empty table, without
raising, when the file is missing or when reading or parsing fails with one
of the two caught exception classes (`IOError`, `json.JSONDecodeError`); in
the latter case a subsequent `create_share_token` succeeds and overwrites
the corrupt file with a valid table.  When the file exists but its bytes do
not decode as UTF-8, `load_tokens` instead raises `UnicodeDecodeError` to
the caller. -/
theorem load_tokens_resilience :
    load_tokens_exc (.decodable .missing) = .ok [] ∧
    load_tokens_exc (.decodable .corrupt) = .ok [] ∧
    (∀ p th tok cr : String, create_share_token .corrupt p th tok cr true
      = (some tok, .valid [(tok, ⟨some p, some th, some cr⟩)])) ∧
    load_tokens_exc .undecodable = .error .unicodeDecodeError :=
  ⟨rfl, rfl, fun _ _ _ _ => rfl, rfl⟩

lemma find?_key_eq_of_nodup {l : Table} {T : String} {r : Record}
    (hmem : (T, r) ∈ l) (hkeys : (l.map Prod.fst).Nodup) :
    l.find? (fun e => e.1 == T) = some (T, r) := by
  induction l with
  | nil => cases hmem
  | cons x t ih =>
      rw [List.map_cons, List.nodup_cons] at hkeys
      by_cases hx : (x.1 == T) = true
      · rw [List.find?_cons_of_pos t hx]
        rcases List.mem_cons.mp hmem with heq | hmemt
        · rw [heq]
        · exfalso
          apply hkeys.1
          have hx1 : x.1 = T := by simpa using hx
          rw [hx1]
          exact List.mem_map_of_mem Prod.fst hmemt
      · rw [List.find?_cons_of_neg t hx]
        rcases List.mem_cons.mp hmem with heq | hmemt
        · exact absurd (by rw [← heq]; simp) hx
        · exact ih hmemt hkeys.2

lemma find?_pathMatches_eq_of_unique {l : Table} {T : String} {r : Record}
    {p : String}
    (hmem : (T, r) ∈ l)
    (honly : ∀ e ∈ l, e.2.path = some p → e = (T, r))
    (hp : r.path = some p) :
    l.find? (pathMatches p) = some (T, r) := by
  induction l with
  | nil => cases hmem
  | cons x t ih =>
      by_cases hpx : pathMatches p x = true
      · rw [List.find?_cons_of_pos t hpx,
          honly x (List.mem_cons_self x t) (pathMatches_iff.mp hpx)]
      · rw [List.find?_cons_of_neg t hpx]
        rcases List.mem_cons.mp hmem with heq | hmemt
        · exact absurd (by rw [← heq]; simp [pathMatches, hp]) hpx
        · exact ih hmemt fun e he hpe =>
            honly e (List.mem_cons_of_mem x he) hpe

/-- Claim C8: a stored record that omits the `theme` field resolves with theme
`"light"` both through `get_note_by_token` on its token and through
`get_share_info` on its path.  The key-uniqueness hypothesis is inherent to a
JSON object; the path-uniqueness hypothesis is the module's documented
invariant and pins down which record `get_share_info` resolves. -/
theorem default_theme_light (fs : FileState) (T p : String) (r : Record)
    (hmem : (T, r) ∈ load_tokens fs)
    (hkeys : ((load_tokens fs).map Prod.fst).Nodup)
    (honly : ∀ e ∈ load_tokens fs, e.2.path = some p → e = (T, r))
    (hp : r.path = some p)
    (hth : r.theme = none) :
    get_note_by_token fs T = some ⟨some p, "light"⟩ ∧
    get_share_info fs p = .shared T "light" r.created := by
  have hkey := find?_key_eq_of_nodup hmem hkeys
  have hpath := find?_pathMatches_eq_of_unique hmem honly hp
  unfold get_note_by_token get_share_info
  rw [hkey, hpath]
  simp [hth, hp]

theorem default_theme_light_witness :
    get_note_by_token (.valid [("Tk", ⟨some "a", none, some "c"⟩)]) "Tk"
        = some ⟨some "a", "light"⟩ ∧
    get_share_info (.valid [("Tk", ⟨some "a", none, some "c"⟩)]) "a"
        = .shared "Tk" "light" (some "c") :=
  default_theme_light (.valid [("Tk", ⟨some "a", none, some "c"⟩)]) "Tk" "a"
    ⟨some "a", none, some "c"⟩ (by decide) (by decide) (by decide) rfl rfl

/-- Claim C1 (counterexample): with an existing record for path `"a"` whose
theme is `"dark"`, `create_share_token` with theme argument `"light"` succeeds
and returns the existing token, but `get_note_by_token` reports theme
`"dark"`, not the theme passed to the create call. -/
theorem create_roundtrip_theme_counterexample :
    (create_share_token (.valid [("T0", ⟨some "a", some "dark", some "c"⟩)])
        "a" "light" "ZZ" "c2" true).1 = some "T0" ∧
    get_note_by_token
        (create_share_token (.valid [("T0", ⟨some "a", some "dark", some "c"⟩)])
          "a" "light" "ZZ" "c2" true).2 "T0"
      = some ⟨some "a", "dark"⟩ ∧
    (⟨some "a", "dark"⟩ : NoteInfo) ≠ ⟨some "a", "light"⟩ := by
  decide

/-- Claim C1 (amended): when no record for the path exists before the call
(and the generated token is fresh, the postcondition of the generation loop),
a successful `create_share_token` returning token `T` round-trips:
`get_note_by_token` on `T` returns exactly the path and theme passed in. -/
theorem create_roundtrip_fresh (fs : FileState) (p t tok cr T : String) (ioOk : Bool)
    (hnew : (load_tokens fs).find? (pathMatches p) = none)
    (hfresh : ∀ e ∈ load_tokens fs, e.1 ≠ tok)
    (hs : (create_share_token fs p t tok cr ioOk).1 = some T) :
    get_note_by_token (create_share_token fs p t tok cr ioOk).2 T
      = some ⟨some p, t⟩ := by
  cases ioOk with
  | false => simp [create_share_token, hnew, save_tokens] at hs
  | true =>
      simp only [create_share_token, hnew, save_tokens, if_true] at hs ⊢
      obtain rfl : tok = T := by simpa using hs
      have h1 : (load_tokens fs).find? (fun e => e.1 == tok) = none := by
        rw [List.find?_eq_none]
        intro e he
        simpa using hfresh e he
      have h2 : load_tokens (FileState.valid (load_tokens fs ++
            [(tok, (⟨some p, some t, some cr⟩ : Record))]))
          = load_tokens fs ++ [(tok, ⟨some p, some t, some cr⟩)] := rfl
      simp only [get_note_by_token, h2, List.find?_append, h1, Option.none_or]
      simp

theorem create_roundtrip_fresh_witness :
    get_note_by_token (create_share_token .missing "a" "dark" "Tk" "c" true).2 "Tk"
      = some ⟨some "a", "dark"⟩ :=
  create_roundtrip_fresh .missing "a" "dark" "Tk" "c" "Tk" true (by decide)
    (by decide) (by decide)

/-- Claim C6 (counterexample): on a table whose only record is keyed by the
empty-string token and has path `"a"`, the scan finds a record with path
`"a"` and the save would succeed, yet `revoke_share_token` returns `false`
and removes nothing (`if token_to_remove:` is falsy for the empty string). -/
theorem revoke_empty_token_counterexample :
    ((load_tokens (.valid [("", ⟨some "a", none, none⟩)])).find?
        (pathMatches "a")).isSome = true ∧
    revoke_share_token (.valid [("", ⟨some "a", none, none⟩)]) "a" true
      = (false, .valid [("", ⟨some "a", none, none⟩)]) := by
  decide

/-- Claim C6 (amended): on every file state that loads (missing,
caught-error corrupt, or valid), `revoke_share_token` returns a boolean
normally, and that boolean is `true` iff the scan finds a first record
matching the path, that record's token is not the empty string, and the
save succeeds — `false` in every other such case, without raising.  On an
existing file whose bytes are not valid UTF-8 it does not return a boolean
at all: the `UnicodeDecodeError` from `load_tokens` propagates to the
caller. -/
theorem revoke_true_iff (fs : FileState) (p : String) (ioOk : Bool) :
    revoke_share_token_exc (.decodable fs) p ioOk
      = .ok (revoke_share_token fs p ioOk) ∧
    ((revoke_share_token fs p ioOk).1 = true ↔
      (∃ e, (load_tokens fs).find? (pathMatches p) = some e ∧ e.1 ≠ "" ∧
        ioOk = true)) ∧
    (∀ (p2 : String) (io2 : Bool),
      revoke_share_token_exc .undecodable p2 io2
        = .error .unicodeDecodeError) := by
  refine ⟨rfl, ?_, fun _ _ => rfl⟩
  cases hf : (load_tokens fs).find? (pathMatches p) with
  | none => simp [revoke_share_token, hf]
  | some e =>
      by_cases he : e.1 = ""
      · simp [revoke_share_token, hf, he]
      · cases ioOk with
        | false => simp [revoke_share_token, save_tokens, hf, he]
        | true => simp [revoke_share_token, save_tokens, hf, he]

lemma load_tokens_valid (tokens : Table) : load_tokens (.valid tokens) = tokens :=
  rfl

lemma get_share_token_valid (tokens : Table) (p : String) :
    get_share_token (.valid tokens) p
      = (tokens.find? (pathMatches p)).map (fun e => e.1) :=
  rfl

lemma update_first_path_append (l₁ l₂ : Table) (T : String) (r : Record)
    (old_path new_path : String)
    (h₁ : ∀ e ∈ l₁, e.2.path ≠ some old_path)
    (hr : r.path = some old_path) :
    update_first_path (l₁ ++ (T, r) :: l₂) old_path new_path
      = l₁ ++ (T, setPath r new_path) :: l₂ := by
  induction l₁ with
  | nil => simp [update_first_path, pathMatches, hr]
  | cons e rest ih =>
      have he : pathMatches old_path e = false := by
        simp only [pathMatches, beq_eq_false_iff_ne, ne_eq]
        exact h₁ e (List.mem_cons_self e rest)
      simp only [List.cons_append, update_first_path, he, if_false,
        Bool.false_eq_true, List.cons.injEq, true_and]
      exact ih fun x hx => h₁ x (List.mem_cons_of_mem e hx)

lemma find?_pathMatches_append (l₁ l₂ : Table) (T : String) (r : Record)
    (old_path : String)
    (h₁ : ∀ e ∈ l₁, e.2.path ≠ some old_path)
    (hr : r.path = some old_path) :
    (l₁ ++ (T, r) :: l₂).find? (pathMatches old_path) = some (T, r) := by
  rw [List.find?_append, find?_pathMatches_eq_none h₁, Option.none_or]
  exact List.find?_cons_of_pos l₂ (by simp [pathMatches, hr])

lemma update_token_path_eq (fs : FileState) (l₁ l₂ : Table) (T : String)
    (r : Record) (old_path new_path : String)
    (hfs : load_tokens fs = l₁ ++ (T, r) :: l₂)
    (h₁ : ∀ e ∈ l₁, e.2.path ≠ some old_path)
    (hr : r.path = some old_path) :
    update_token_path fs old_path new_path true
      = (true, .valid (l₁ ++ (T, setPath r new_path) :: l₂)) := by
  simp [update_token_path, hfs, find?_pathMatches_append l₁ l₂ T r old_path h₁ hr,
    save_tokens, update_first_path_append l₁ l₂ T r old_path new_path h₁ hr]

/-- Claim C10: `update_token_path` rewrites only the `path` field of the first
record matching the old path: that record keeps its token key, theme and
created fields, and every other record of the persisted table is unchanged. -/
theorem update_frame (fs : FileState) (l₁ l₂ : Table) (T : String) (r : Record)
    (old_path new_path : String)
    (hfs : load_tokens fs = l₁ ++ (T, r) :: l₂)
    (h₁ : ∀ e ∈ l₁, e.2.path ≠ some old_path)
    (hr : r.path = some old_path) :
    update_token_path fs old_path new_path true
      = (true, .valid (l₁ ++
          (T, { path := some new_path, theme := r.theme, created := r.created })
            :: l₂)) :=
  update_token_path_eq fs l₁ l₂ T r old_path new_path hfs h₁ hr

theorem update_frame_witness :
    update_token_path (.valid [("T1", ⟨some "x", some "dark", some "c1"⟩),
        ("T2", ⟨some "a", some "light", some "c2"⟩),
        ("T3", ⟨some "y", none, none⟩)]) "a" "b" true
      = (true, .valid [("T1", ⟨some "x", some "dark", some "c1"⟩),
          ("T2", ⟨some "b", some "light", some "c2"⟩),
          ("T3", ⟨some "y", none, none⟩)]) :=
  update_frame (.valid [("T1", ⟨some "x", some "dark", some "c1"⟩),
      ("T2", ⟨some "a", some "light", some "c2"⟩),
      ("T3", ⟨some "y", none, none⟩)])
    [("T1", ⟨some "x", some "dark", some "c1"⟩)]
    [("T3", ⟨some "y", none, none⟩)] "T2" ⟨some "a", some "light", some "c2"⟩
    "a" "b" rfl (by decide) rfl

lemma find?_decomp {α : Type _} {p : α → Bool} {l : List α} {a : α}
    (h : l.find? p = some a) :
    ∃ l₁ l₂, l = l₁ ++ a :: l₂ ∧ ∀ b ∈ l₁, p b = false := by
  induction l with
  | nil => simp at h
  | cons x t ih =>
      by_cases hx : p x = true
      · rw [List.find?_cons_of_pos t hx] at h
        obtain rfl := Option.some.inj h
        exact ⟨[], t, rfl, by simp⟩
      · rw [List.find?_cons_of_neg t hx] at h
        obtain ⟨l₁, l₂, rfl, hl₁⟩ := ih h
        refine ⟨x :: l₁, l₂, rfl, ?_⟩
        intro b hb
        rcases List.mem_cons.mp hb with rfl | hb
        · exact Bool.eq_false_iff.mpr hx
        · exact hl₁ b hb

/-- Claim C5: renaming preserves the token.  If the table holds a record for
the old path with token `T` and no other record has the old path, and
`update_token_path` returns `true`, then `get_note_by_token` on `T`
afterwards reports the new path, and `get_share_token` on the old path
returns `none` (for distinct old and new paths; key uniqueness is inherent
to a JSON object). -/
theorem update_preserves_token (fs : FileState) (T : String)
    (r : Record) (old_path new_path : String) (ioOk : Bool)
    (hmem : (T, r) ∈ load_tokens fs)
    (hr : r.path = some old_path)
    (honly : ∀ e ∈ load_tokens fs, e.2.path = some old_path → e = (T, r))
    (hkeys : ((load_tokens fs).map Prod.fst).Nodup)
    (hne : old_path ≠ new_path)
    (hupd : (update_token_path fs old_path new_path ioOk).1 = true) :
    get_note_by_token (update_token_path fs old_path new_path ioOk).2 T
      = some ⟨some new_path, r.theme.getD "light"⟩ ∧
    get_share_token (update_token_path fs old_path new_path ioOk).2 old_path
      = none := by
  have hfind := find?_pathMatches_eq_of_unique hmem honly hr
  obtain ⟨l₁, l₂, hfs, hl₁⟩ := find?_decomp hfind
  have h₁ : ∀ e ∈ l₁, e.2.path ≠ some old_path := by
    intro e he
    have := hl₁ e he
    simpa [pathMatches] using this
  have hksplit : ((l₁.map Prod.fst) ++ T :: (l₂.map Prod.fst)).Nodup := by
    have h := hkeys
    rw [hfs] at h
    simpa using h
  have h₂ : ∀ e ∈ l₂, e.2.path ≠ some old_path := by
    intro e he hpe
    have hmem' : e ∈ load_tokens fs := by
      rw [hfs]
      exact List.mem_append_right _ (List.mem_cons_of_mem _ he)
    have heq := honly e hmem' hpe
    have hTl₂ : T ∈ l₂.map Prod.fst := by
      rw [← show e.1 = T from congrArg Prod.fst heq]
      exact List.mem_map_of_mem Prod.fst he
    have hnd := (List.nodup_append.mp hksplit).2.1
    rw [List.nodup_cons] at hnd
    exact hnd.1 hTl₂
  have hkey : ∀ e ∈ l₁, e.1 ≠ T := by
    intro e he hc
    have hl : e.1 ∈ l₁.map Prod.fst := List.mem_map_of_mem Prod.fst he
    have hr' : e.1 ∈ T :: l₂.map Prod.fst := by
      rw [hc]
      exact List.mem_cons_self _ _
    exact (List.nodup_append.mp hksplit).2.2 hl hr'
  cases ioOk with
  | false => simp [update_token_path, hfs, hfind, save_tokens] at hupd
  | true =>
      rw [update_token_path_eq fs l₁ l₂ T r old_path new_path hfs h₁ hr]
      have hk : (l₁ ++ (T, setPath r new_path) :: l₂).find? (fun e => e.1 == T)
          = some (T, setPath r new_path) := by
        rw [List.find?_append]
        have : l₁.find? (fun e => e.1 == T) = none := by
          rw [List.find?_eq_none]
          intro e he
          simpa using hkey e he
        rw [this, Option.none_or]
        exact List.find?_cons_of_pos l₂ (by simp)
      have hp : (l₁ ++ (T, setPath r new_path) :: l₂).find? (pathMatches old_path)
          = none := by
        apply find?_pathMatches_eq_none
        intro e he
        rcases List.mem_append.mp he with h | h
        · exact h₁ e h
        · rcases List.mem_cons.mp h with h | h
          · subst h
            simp only [setPath, ne_eq, Option.some.injEq]
            exact fun hc => hne hc.symm
          · exact h₂ e h
      constructor
      · show get_note_by_token (.valid (l₁ ++ (T, setPath r new_path) :: l₂)) T
          = some ⟨some new_path, r.theme.getD "light"⟩
        unfold get_note_by_token
        rw [load_tokens_valid, hk]
        simp [setPath]
      · show get_share_token (.valid (l₁ ++ (T, setPath r new_path) :: l₂))
            old_path = none
        rw [get_share_token_valid, hp]
        rfl

theorem update_preserves_token_witness :
    get_note_by_token (update_token_path (.valid
        [("T1", ⟨some "x", some "dark", some "c1"⟩),
         ("T2", ⟨some "a", some "light", some "c2"⟩),
         ("T3", ⟨some "y", none, none⟩)]) "a" "b" true).2 "T2"
      = some ⟨some "b", "light"⟩ ∧
    get_share_token (update_token_path (.valid
        [("T1", ⟨some "x", some "dark", some "c1"⟩),
         ("T2", ⟨some "a", some "light", some "c2"⟩),
         ("T3", ⟨some "y", none, none⟩)]) "a" "b" true).2 "a" = none :=
  update_preserves_token (.valid [("T1", ⟨some "x", some "dark", some "c1"⟩),
      ("T2", ⟨some "a", some "light", some "c2"⟩),
      ("T3", ⟨some "y", none, none⟩)])
    "T2" ⟨some "a", some "light", some "c2"⟩ "a" "b" true
    (by decide) rfl (by decide) (by decide) (by decide) (by decide)

lemma countP_eraseP_eq_zero {α : Type _} (q : α → Bool) (l : List α)
    (h : l.countP q = 1) : (l.eraseP q).countP q = 0 := by
  induction l with
  | nil => simp at h
  | cons a t ih =>
      by_cases ha : q a = true
      · rw [List.eraseP_cons_of_pos ha]
        rw [List.countP_cons, if_pos ha] at h
        omega
      · rw [List.eraseP_cons_of_neg ha, List.countP_cons, if_neg ha]
        rw [List.countP_cons, if_neg ha] at h
        simpa using ih h

lemma mem_get_all_shared_paths {fs : FileState} {p : String}
    (h : p ∈ get_all_shared_paths fs) :
    ∃ e ∈ load_tokens fs, e.2.path = some p := by
  simp only [get_all_shared_paths, List.mem_filterMap] at h
  obtain ⟨e, he, hfe⟩ := h
  refine ⟨e, he, ?_⟩
  rcases hp : e.2.path with _ | s
  · rw [hp] at hfe
    exact Option.noConfusion hfe
  · rw [hp] at hfe
    have hfe' : (if (s == "") = true then none else some s) = some p := hfe
    by_cases hs : s = ""
    · subst hs
      simp at hfe'
    · rw [if_neg (by simpa using hs)] at hfe'
      exact hfe'

/-- Claim C4: after `revoke_share_token` returns `true` on a table with
exactly one record for path `p`, looking the path up yields nothing:
`get_share_token` returns `none`, `get_share_info` reports not shared, and `p`
is absent from `get_all_shared_paths`. -/
theorem revoke_clears_all_views (fs : FileState) (p : String) (ioOk : Bool)
    (fs' : FileState)
    (hone : (load_tokens fs).countP (pathMatches p) = 1)
    (hrev : revoke_share_token fs p ioOk = (true, fs')) :
    get_share_token fs' p = none ∧ get_share_info fs' p = .notShared ∧
    p ∉ get_all_shared_paths fs' := by
  rcases hf : (load_tokens fs).find? (pathMatches p) with _ | e
  · simp [revoke_share_token, hf] at hrev
  · by_cases he : e.1 = ""
    · simp [revoke_share_token, hf, he] at hrev
    · cases ioOk with
      | false => simp [revoke_share_token, save_tokens, hf, he] at hrev
      | true =>
          have hfs' : fs' = .valid ((load_tokens fs).eraseP (pathMatches p)) := by
            have h := hrev
            simp [revoke_share_token, save_tokens, hf, he] at h
            exact h.symm
          have hz := countP_eraseP_eq_zero (pathMatches p) (load_tokens fs) hone
          have hnone : ((load_tokens fs).eraseP (pathMatches p)).find?
              (pathMatches p) = none := by
            rw [List.find?_eq_none]
            exact List.countP_eq_zero.mp hz
          refine ⟨?_, ?_, ?_⟩
          · rw [hfs', get_share_token_valid, hnone]
            rfl
          · rw [hfs']
            unfold get_share_info
            rw [load_tokens_valid, hnone]
          · intro hmem
            obtain ⟨e', he', hpe'⟩ := mem_get_all_shared_paths (hfs' ▸ hmem)
            have := List.countP_eq_zero.mp hz e'
              (by simpa [load_tokens_valid] using he')
            simp [pathMatches, hpe'] at this

theorem revoke_clears_all_views_witness :
    get_share_token (.valid ([] : Table)) "a" = none ∧
    get_share_info (.valid ([] : Table)) "a" = .notShared ∧
    "a" ∉ get_all_shared_paths (.valid ([] : Table)) :=
  revoke_clears_all_views (.valid [("Tk", ⟨some "a", some "light", none⟩)])
    "a" true (.valid []) (by decide) (by decide)

/-- Claim C2 (counterexample): from the empty data directory, two creates
followed by `update_token_path "a" "b"` reach a table in which both tokens
map to path `"b"`: the rename does not check whether the new path is already
shared, so the at-most-one-token-per-path invariant is not preserved by the
three mutating operations. -/
theorem reachable_two_tokens_same_path :
    Reachable (.valid [("T1", ⟨some "b", some "light", some "c"⟩),
        ("T2", ⟨some "b", some "light", some "c"⟩)]) ∧
    ¬ atMostOnePerPath (load_tokens (.valid
        [("T1", ⟨some "b", some "light", some "c"⟩),
         ("T2", ⟨some "b", some "light", some "c"⟩)])) := by
  constructor
  · have h1 : Reachable (.valid
        [("T1", (⟨some "a", some "light", some "c"⟩ : Record))]) :=
      Reachable.create .missing "a" "light" "T1" "c" true Reachable.init
        (by decide)
    have h2 : Reachable (.valid
        [("T1", (⟨some "a", some "light", some "c"⟩ : Record)),
         ("T2", ⟨some "b", some "light", some "c"⟩)]) :=
      Reachable.create _ "b" "light" "T2" "c" true h1 (by decide)
    exact Reachable.update _ "a" "b" true h2
  · intro h
    exact absurd (h "b") (by decide)

lemma atMostOnePerPath_create (fs : FileState) (p th tok cr : String)
    (ioOk : Bool) (ih : atMostOnePerPath (load_tokens fs)) :
    atMostOnePerPath (load_tokens (create_share_token fs p th tok cr ioOk).2) := by
  rcases hf : (load_tokens fs).find? (pathMatches p) with _ | e
  · cases ioOk with
    | false => simpa [create_share_token, hf, save_tokens] using ih
    | true =>
        have h0 : (load_tokens fs).countP (pathMatches p) = 0 :=
          List.countP_eq_zero.mpr (List.find?_eq_none.mp hf)
        have hstate : (create_share_token fs p th tok cr true).2
            = .valid (load_tokens fs ++ [(tok, ⟨some p, some th, some cr⟩)]) := by
          simp [create_share_token, hf, save_tokens]
        rw [hstate, load_tokens_valid]
        intro q
        rw [List.countP_append]
        by_cases hq : q = p
        · subst hq
          have h1 : List.countP (pathMatches q)
              [(tok, (⟨some q, some th, some cr⟩ : Record))] = 1 := by
            simp [List.countP_cons, pathMatches]
          omega
        · have h1 : List.countP (pathMatches q)
              [(tok, (⟨some p, some th, some cr⟩ : Record))] = 0 := by
            simp [List.countP_cons, pathMatches]
            exact fun hc => hq hc.symm
          have := ih q
          omega
  · simpa [create_share_token, hf] using ih

lemma atMostOnePerPath_revoke (fs : FileState) (p : String) (ioOk : Bool)
    (ih : atMostOnePerPath (load_tokens fs)) :
    atMostOnePerPath (load_tokens (revoke_share_token fs p ioOk).2) := by
  rcases hf : (load_tokens fs).find? (pathMatches p) with _ | e
  · simpa [revoke_share_token, hf] using ih
  · by_cases he : e.1 = ""
    · simpa [revoke_share_token, hf, he] using ih
    · cases ioOk with
      | false => simpa [revoke_share_token, save_tokens, hf, he] using ih
      | true =>
          have hstate : (revoke_share_token fs p true).2
              = .valid ((load_tokens fs).eraseP (pathMatches p)) := by
            simp [revoke_share_token, save_tokens, hf, he]
          rw [hstate, load_tokens_valid]
          intro q
          exact le_trans
            ((List.eraseP_sublist (load_tokens fs)).countP_le (pathMatches q))
            (ih q)

lemma atMostOnePerPath_update (fs : FileState) (old_path new_path : String)
    (ioOk : Bool)
    (hnew : ∀ e ∈ load_tokens fs, e.2.path ≠ some new_path)
    (ih : atMostOnePerPath (load_tokens fs)) :
    atMostOnePerPath
      (load_tokens (update_token_path fs old_path new_path ioOk).2) := by
  rcases hf : (load_tokens fs).find? (pathMatches old_path) with _ | e
  · simpa [update_token_path, hf] using ih
  · cases ioOk with
    | false => simpa [update_token_path, save_tokens, hf] using ih
    | true =>
        obtain ⟨l₁, l₂, hdec, hl₁⟩ := find?_decomp hf
        have hepath : e.2.path = some old_path :=
          pathMatches_iff.mp (List.find?_some hf)
        have h₁ : ∀ x ∈ l₁, x.2.path ≠ some old_path := by
          intro x hx
          have := hl₁ x hx
          simpa [pathMatches] using this
        rw [update_token_path_eq fs l₁ l₂ e.1 e.2 old_path new_path hdec h₁
          hepath]
        show atMostOnePerPath
          (load_tokens (.valid (l₁ ++ (e.1, setPath e.2 new_path) :: l₂)))
        rw [load_tokens_valid]
        intro q
        rw [List.countP_append, List.countP_cons]
        have hmem₁ : ∀ x ∈ l₁, x ∈ load_tokens fs := by
          intro x hx
          rw [hdec]
          exact List.mem_append_left _ hx
        have hmem₂ : ∀ x ∈ l₂, x ∈ load_tokens fs := by
          intro x hx
          rw [hdec]
          exact List.mem_append_right _ (List.mem_cons_of_mem _ hx)
        by_cases hq : q = new_path
        · subst hq
          have hz₁ : l₁.countP (pathMatches q) = 0 :=
            List.countP_eq_zero.mpr fun x hx => by
              simpa [pathMatches] using hnew x (hmem₁ x hx)
          have hz₂ : l₂.countP (pathMatches q) = 0 :=
            List.countP_eq_zero.mpr fun x hx => by
              simpa [pathMatches] using hnew x (hmem₂ x hx)
          have hm : pathMatches q (e.1, setPath e.2 q) = true := by
            simp [pathMatches, setPath]
          rw [hz₁, hz₂, if_pos hm]
        · have hm : pathMatches q (e.1, setPath e.2 new_path) = false := by
            simp only [pathMatches, setPath, beq_eq_false_iff_ne, ne_eq,
              Option.some.injEq]
            exact fun hc => hq hc.symm
          rw [if_neg (by simp [hm])]
          have := ih q
          rw [hdec, List.countP_append, List.countP_cons] at this
          omega

/-- Claim C2 (amended): in every table reachable from the empty data
directory by `create_share_token`, `revoke_share_token`, and
`update_token_path` steps whose new path is not already the path of a record
in the table, at most one token maps to any given path.  (Unrestricted
`update_token_path` steps break the invariant, see the counterexample.) -/
theorem reachable_atMostOnePerPath (fs : FileState) (h : ReachableSafe fs) :
    atMostOnePerPath (load_tokens fs) := by
  induction h with
  | init => intro q; simp [load_tokens]
  | create fs p th tok cr ioOk hfs hfresh ih =>
      exact atMostOnePerPath_create fs p th tok cr ioOk ih
  | revoke fs p ioOk hfs ih => exact atMostOnePerPath_revoke fs p ioOk ih
  | update fs old_path new_path ioOk hfs hnew ih =>
      exact atMostOnePerPath_update fs old_path new_path ioOk hnew ih

theorem reachable_atMostOnePerPath_witness :
    atMostOnePerPath (load_tokens (.valid
      [("T1", ⟨some "a", some "light", some "c"⟩),
       ("T2", ⟨some "b", some "light", some "c"⟩)])) :=
  reachable_atMostOnePerPath _
    (ReachableSafe.create (.valid
        [("T1", (⟨some "a", some "light", some "c"⟩ : Record))])
      "b" "light" "T2" "c" true
      (ReachableSafe.create .missing "a" "light" "T1" "c" true
        ReachableSafe.init (by decide))
      (by decide))

end NoteDiscovery
